import Mathlib

/-!
Verification of `src/logs_merger.py` (tuimazy2008/MergeLogs).

The program merges two timestamp-sorted `.jsonl` log files into one output
file.  We shallowly embed the program:

* an input file is a `List String` of its lines (Python's `readline` returns
  each line in turn and `""` at end of file, so real lines are never `""`);
* the output file is the list of chunks written by `fd_out.write` (writing
  `""` contributes nothing to the file and is dropped);
* `json.loads` and `datetime.strptime` (Python standard library calls made by
  `get_log_time`) are modelled by executable Lean functions below, following
  Python's `json` grammar and the `_strptime` regular expressions for the
  fixed format `%Y-%m-%d %H:%M:%S`;
* every exception that aborts the merge is an explicit `MergeErr` value.
-/

/-! ## A model of Python's `json.loads` -/

/-- JSON values.  Number values never influence the merge (only the
`timestamp` field, which must be a string, is inspected), so `num` carries no
payload; parse success/failure is modelled faithfully. -/
inductive Json where
  | null : Json
  | bool : Bool → Json
  | num : Json
  | str : String → Json
  | arr : List Json → Json
  | obj : List (String × Json) → Json

def isDigitCh (c : Char) : Bool := '0' ≤ c && c ≤ '9'

def digitVal (c : Char) : Nat := c.toNat - 48

def isJsonWs (c : Char) : Bool := c = ' ' || c = '\t' || c = '\n' || c = '\r'

def skipWs : List Char → List Char
  | c :: cs => if isJsonWs c then skipWs cs else c :: cs
  | [] => []

def hexVal : Char → Option Nat
  | c =>
    if isDigitCh c then some (digitVal c)
    else if 'a' ≤ c && c ≤ 'f' then some (c.toNat - 87)
    else if 'A' ≤ c && c ≤ 'F' then some (c.toNat - 55)
    else none

def escChar : Char → Option Char
  | '"' => some '"'
  | '\\' => some '\\'
  | '/' => some '/'
  | 'b' => some '\x08'
  | 'f' => some '\x0c'
  | 'n' => some '\n'
  | 'r' => some '\r'
  | 't' => some '\t'
  | _ => none

/-- Characters of a JSON string literal, after the opening quote.  Mirrors
Python's (strict) `scanstring`: escapes as in the JSON standard, unescaped
control characters rejected, `\uXXXX` taken as a code point. -/
def parseStrChars : List Char → Option (List Char × List Char)
  | [] => none
  | '"' :: cs => some ([], cs)
  | '\\' :: 'u' :: a :: b :: c :: d :: cs =>
    (match hexVal a, hexVal b, hexVal c, hexVal d with
     | some ha, some hb, some hc, some hd =>
       (parseStrChars cs).map
         (fun p => (Char.ofNat (((ha * 16 + hb) * 16 + hc) * 16 + hd) :: p.1, p.2))
     | _, _, _, _ => none)
  | '\\' :: e :: cs =>
    (match escChar e with
     | some ec => (parseStrChars cs).map (fun p => (ec :: p.1, p.2))
     | none => none)
  | c :: cs =>
    if c.toNat < 32 then none
    else (parseStrChars cs).map (fun p => (c :: p.1, p.2))

def skipDigits : List Char → List Char
  | c :: cs => if isDigitCh c then skipDigits cs else c :: cs
  | [] => []

/-- Integer part of a JSON number: `0` or `[1-9][0-9]*`. -/
def parseIntPart : List Char → Option (List Char)
  | c :: cs =>
    if c = '0' then some cs
    else if isDigitCh c then some (skipDigits cs)
    else none
  | [] => none

/-- Optional fraction `.[0-9]+`; if absent or malformed nothing is consumed
(the regex group simply does not match). -/
def parseFrac : List Char → List Char
  | '.' :: c :: cs => if isDigitCh c then skipDigits cs else '.' :: c :: cs
  | cs => cs

/-- Optional exponent `[eE][+-]?[0-9]+`; if absent or malformed nothing is
consumed. -/
def parseExp : List Char → List Char
  | e :: '+' :: c :: cs =>
    if (e = 'e' || e = 'E') && isDigitCh c then skipDigits cs
    else e :: '+' :: c :: cs
  | e :: '-' :: c :: cs =>
    if (e = 'e' || e = 'E') && isDigitCh c then skipDigits cs
    else e :: '-' :: c :: cs
  | e :: c :: cs =>
    if (e = 'e' || e = 'E') && isDigitCh c then skipDigits cs
    else e :: c :: cs
  | cs => cs

/-- A JSON number, per Python's `NUMBER_RE`; the remainder is returned. -/
def parseNumber : List Char → Option (List Char)
  | '-' :: rest => (parseIntPart rest).map (fun r => parseExp (parseFrac r))
  | cs => (parseIntPart cs).map (fun r => parseExp (parseFrac r))

mutual

/-- One JSON value; `fuel` bounds nesting (each recursion step consumes at
least one input character, so the initial fuel `length + 1` never runs out). -/
def parseValue : Nat → List Char → Option (Json × List Char)
  | 0, _ => none
  | _ + 1, [] => none
  | fuel + 1, c :: cs =>
    if c = '"' then
      (parseStrChars cs).map (fun p => (Json.str (String.mk p.1), p.2))
    else if c = '\x7b' then
      match skipWs cs with
      | '\x7d' :: rest => some (Json.obj [], rest)
      | cs1 => parseMembers fuel cs1 []
    else if c = '[' then
      match skipWs cs with
      | ']' :: rest => some (Json.arr [], rest)
      | cs1 => parseItems fuel cs1 []
    else if c = 't' then
      match cs with
      | 'r' :: 'u' :: 'e' :: rest => some (Json.bool true, rest)
      | _ => none
    else if c = 'f' then
      match cs with
      | 'a' :: 'l' :: 's' :: 'e' :: rest => some (Json.bool false, rest)
      | _ => none
    else if c = 'n' then
      match cs with
      | 'u' :: 'l' :: 'l' :: rest => some (Json.null, rest)
      | _ => none
    else if c = 'N' then
      match cs with
      | 'a' :: 'N' :: rest => some (Json.num, rest)
      | _ => none
    else if c = 'I' then
      match cs with
      | 'n' :: 'f' :: 'i' :: 'n' :: 'i' :: 't' :: 'y' :: rest => some (Json.num, rest)
      | _ => none
    else if c = '-' then
      match cs with
      | 'I' :: 'n' :: 'f' :: 'i' :: 'n' :: 'i' :: 't' :: 'y' :: rest =>
        some (Json.num, rest)
      | _ => (parseNumber (c :: cs)).map (fun r => (Json.num, r))
    else
      (parseNumber (c :: cs)).map (fun r => (Json.num, r))

/-- Members of a JSON object, positioned at a key string (whitespace already
skipped).  Python keeps the last binding for a repeated key; lookup below
matches that. -/
def parseMembers : Nat → List Char → List (String × Json) → Option (Json × List Char)
  | 0, _, _ => none
  | fuel + 1, cs, acc =>
    match cs with
    | '"' :: cs1 =>
      (match parseStrChars cs1 with
       | none => none
       | some (kc, cs2) =>
         match skipWs cs2 with
         | ':' :: cs3 =>
           (match parseValue fuel (skipWs cs3) with
            | none => none
            | some (v, cs4) =>
              match skipWs cs4 with
              | ',' :: cs5 => parseMembers fuel (skipWs cs5) (acc ++ [(String.mk kc, v)])
              | '\x7d' :: cs5 => some (Json.obj (acc ++ [(String.mk kc, v)]), cs5)
              | _ => none)
         | _ => none)
    | _ => none

/-- Items of a JSON array, positioned at a value. -/
def parseItems : Nat → List Char → List Json → Option (Json × List Char)
  | 0, _, _ => none
  | fuel + 1, cs, acc =>
    match parseValue fuel cs with
    | none => none
    | some (v, cs1) =>
      match skipWs cs1 with
      | ',' :: cs2 => parseItems fuel (skipWs cs2) (acc ++ [v])
      | ']' :: cs2 => some (Json.arr (acc ++ [v]), cs2)
      | _ => none

end

/-- Model of `json.loads`: leading/trailing whitespace allowed, exactly one
value, `none` on any `JSONDecodeError`. -/
def json_loads (s : String) : Option Json :=
  let cs := skipWs s.toList
  match parseValue (cs.length + 1) cs with
  | some (v, rest) => if skipWs rest = [] then some v else none
  | none => none

/-- Dictionary lookup as Python's `dict.get`: for a repeated key the parser
above accumulates bindings left to right, and Python's dict keeps the last
one, so the last binding wins. -/
def jget (kvs : List (String × Json)) (k : String) : Option Json :=
  match kvs with
  | [] => none
  | (k1, v) :: rest =>
    match jget rest k with
    | some r => some r
    | none => if k1 = k then some v else none

/-! ## A model of `datetime.strptime(_, "%Y-%m-%d %H:%M:%S")` -/

/-- The result of a successful parse.  Python compares `datetime` values
lexicographically on `(year, month, day, hour, minute, second)`; with the
field bounds enforced by the constructor checks below, that order coincides
with the order of `key`. -/
structure DateTime where
  year : Nat
  month : Nat
  day : Nat
  hour : Nat
  minute : Nat
  second : Nat
deriving DecidableEq, Repr

/-- Mixed-radix encoding of a datetime; within constructor bounds
(`month ≤ 12 < 13`, `day ≤ 31 < 32`, `hour ≤ 23 < 24`, `minute, second ≤ 59 < 60`)
it is an order embedding of the lexicographic `datetime` order. -/
def DateTime.key (t : DateTime) : Nat :=
  ((((t.year * 13 + t.month) * 32 + t.day) * 24 + t.hour) * 60 + t.minute) * 60 + t.second

/-- The `%Y` directive: exactly four digits. -/
def matchYear : List Char → Option (Nat × List Char)
  | c1 :: c2 :: c3 :: c4 :: rest =>
    if isDigitCh c1 && isDigitCh c2 && isDigitCh c3 && isDigitCh c4 then
      some (((digitVal c1 * 10 + digitVal c2) * 10 + digitVal c3) * 10 + digitVal c4, rest)
    else none
  | _ => none

/-- The `%m` directive, regex `1[0-2]|0[1-9]|[1-9]` (two digits preferred,
alternatives tried in order as `re` does). -/
def matchMonth : List Char → Option (Nat × List Char)
  | [] => none
  | c1 :: rest1 =>
    if isDigitCh c1 then
      let a := digitVal c1
      match rest1 with
      | c2 :: rest2 =>
        if isDigitCh c2 then
          let b := digitVal c2
          if (a = 1 && b ≤ 2) || (a = 0 && 1 ≤ b) then some (a * 10 + b, rest2)
          else if 1 ≤ a then some (a, c2 :: rest2)
          else none
        else if 1 ≤ a then some (a, c2 :: rest2) else none
      | [] => if 1 ≤ a then some (a, []) else none
    else none

/-- The `%d` directive, regex `3[01]|[12][0-9]|0[1-9]|[1-9]`. -/
def matchDay : List Char → Option (Nat × List Char)
  | [] => none
  | c1 :: rest1 =>
    if isDigitCh c1 then
      let a := digitVal c1
      match rest1 with
      | c2 :: rest2 =>
        if isDigitCh c2 then
          let b := digitVal c2
          if (a = 3 && b ≤ 1) || a = 1 || a = 2 || (a = 0 && 1 ≤ b) then
            some (a * 10 + b, rest2)
          else if 1 ≤ a then some (a, c2 :: rest2)
          else none
        else if 1 ≤ a then some (a, c2 :: rest2) else none
      | [] => if 1 ≤ a then some (a, []) else none
    else none

/-- The `%H` directive, regex `2[0-3]|[0-1][0-9]|[0-9]`. -/
def matchHour : List Char → Option (Nat × List Char)
  | [] => none
  | c1 :: rest1 =>
    if isDigitCh c1 then
      let a := digitVal c1
      match rest1 with
      | c2 :: rest2 =>
        if isDigitCh c2 then
          let b := digitVal c2
          if (a = 2 && b ≤ 3) || a ≤ 1 then some (a * 10 + b, rest2)
          else some (a, c2 :: rest2)
        else some (a, c2 :: rest2)
      | [] => some (a, [])
    else none

/-- The `%M` directive, regex `[0-5][0-9]|[0-9]`. -/
def matchMinute : List Char → Option (Nat × List Char)
  | [] => none
  | c1 :: rest1 =>
    if isDigitCh c1 then
      let a := digitVal c1
      match rest1 with
      | c2 :: rest2 =>
        if isDigitCh c2 then
          let b := digitVal c2
          if a ≤ 5 then some (a * 10 + b, rest2)
          else some (a, c2 :: rest2)
        else some (a, c2 :: rest2)
      | [] => some (a, [])
    else none

/-- The `%S` directive, regex `6[0-1]|[0-5][0-9]|[0-9]` (the regex admits leap
seconds; the `datetime` constructor then rejects them, see `strptime_dt`). -/
def matchSecond : List Char → Option (Nat × List Char)
  | [] => none
  | c1 :: rest1 =>
    if isDigitCh c1 then
      let a := digitVal c1
      match rest1 with
      | c2 :: rest2 =>
        if isDigitCh c2 then
          let b := digitVal c2
          if (a = 6 && b ≤ 1) || a ≤ 5 then some (a * 10 + b, rest2)
          else some (a, c2 :: rest2)
        else some (a, c2 :: rest2)
      | [] => some (a, [])
    else none

/-- A literal character of the format. -/
def matchLit (l : Char) : List Char → Option (List Char)
  | c :: cs => if c = l then some cs else none
  | [] => none

def isPyWs (c : Char) : Bool :=
  c = ' ' || c = '\t' || c = '\n' || c = '\r' || c = '\x0b' || c = '\x0c'

def skipPyWs : List Char → List Char
  | c :: cs => if isPyWs c then skipPyWs cs else c :: cs
  | [] => []

/-- Whitespace in the format string compiles to `\s+`. -/
def matchWs : List Char → Option (List Char)
  | c :: cs => if isPyWs c then some (skipPyWs cs) else none
  | [] => none

def isLeap (y : Nat) : Bool := y % 4 = 0 && (y % 100 ≠ 0 || y % 400 = 0)

def daysInMonth (y m : Nat) : Nat :=
  if m = 2 then (if isLeap y then 29 else 28)
  else if m = 4 || m = 6 || m = 9 || m = 11 then 30
  else 31

/-- Model of `datetime.strptime(s, "%Y-%m-%d %H:%M:%S")`: match the compiled
regex against the whole string (`strptime` raises `ValueError` on unconverted
trailing data — fractional seconds are therefore rejected, not ignored), then
apply the `datetime` constructor checks (`MINYEAR ≤ year`, day within the
month, `second ≤ 59`). -/
def strptime_dt (s : String) : Option DateTime := do
  let (y, r1) ← matchYear s.toList
  let r2 ← matchLit '-' r1
  let (m, r3) ← matchMonth r2
  let r4 ← matchLit '-' r3
  let (d, r5) ← matchDay r4
  let r6 ← matchWs r5
  let (h, r7) ← matchHour r6
  let r8 ← matchLit ':' r7
  let (mi, r9) ← matchMinute r8
  let r10 ← matchLit ':' r9
  let (sec, r11) ← matchSecond r10
  if r11 = [] ∧ 1 ≤ y ∧ d ≤ daysInMonth y m ∧ sec ≤ 59 then
    some ⟨y, m, d, h, mi, sec⟩
  else none

/-! ## `LogsMerger.get_log_time` -/

/-- Exceptions that abort the merge.  Every branch of `get_log_time` either
re-raises (`JSONDecodeError`, `ValueError`) or lets the exception propagate
uncaught (`AttributeError` from `.get` on a non-dict, `TypeError` from
`strptime` on a missing or non-string field, `TypeError` from ordering `None`
against a `datetime`); all of them are fatal to `merge`. -/
inductive MergeErr where
  | jsonDecode (line : String)
  | notObject (line : String)
  | badTimestampType (line : String)
  | formatMismatch (ts : String)
  | noneCompare
deriving DecidableEq, Repr

deriving instance DecidableEq for Except

/-- `LogsMerger.get_log_time`: `None` for an empty line (end-of-file marker),
otherwise `json.loads(line).get('timestamp')` fed to `strptime`. -/
def get_log_time (line : String) : Except MergeErr (Option DateTime) :=
  if line = "" then .ok none
  else
    match json_loads line with
    | none => .error (.jsonDecode line)
    | some (Json.obj kvs) =>
      (match jget kvs "timestamp" with
       | some (Json.str ts) =>
         (match strptime_dt ts with
          | some t => .ok (some t)
          | none => .error (.formatMismatch ts))
       | some _ => .error (.badTimestampType line)
       | none => .error (.badTimestampType line))
    | some _ => .error (.notObject line)

/-! ## `LogsMerger.write_logs_until` -/

/-- Result of `write_logs_until`: either a normal return with the line it
stopped at (`pending`, the function's return value), the part of the input
stream not yet read (`rest`), and the lines it wrote (`written`); or an
exception raised by `get_log_time`, together with the lines written before
the raise (the output file keeps them — fail-fast, no rollback). -/
inductive WRes where
  | ok (pending : Option String) (rest : List String) (written : List String)
  | err (e : MergeErr) (written : List String)
deriving DecidableEq, Repr

/-- `LogsMerger.write_logs_until(fd_in, fd_out, stop_time)`.  The stream is a
list of lines; `readline` at end of file returns `""`, which is the `[]` case
here.  When `stop_time` is `None` the Python condition
`stop_time and get_log_time(...) > stop_time` short-circuits, so the line is
written with no parsing at all.  A line whose time exceeds `stop_time` is
returned (it stays pending, unwritten); `get_log_time` returning `None` for a
line inside the stream would make Python order `None > stop_time`, a
`TypeError` (unreachable for lines of a real file, which are nonempty). -/
def write_logs_until (stop_time : Option DateTime) : List String → WRes
  | [] => .ok none [] []
  | l :: ls =>
    match stop_time with
    | none =>
      (match write_logs_until none ls with
       | .ok p rest w => .ok p rest (l :: w)
       | .err e w => .err e (l :: w))
    | some st =>
      match get_log_time l with
      | .error e => .err e []
      | .ok none => .err .noneCompare []
      | .ok (some t) =>
        if st.key < t.key then .ok (some l) ls []
        else
          match write_logs_until (some st) ls with
          | .ok p rest w => .ok p rest (l :: w)
          | .err e w => .err e (l :: w)

/-! ## `LogsMerger.merge` -/

/-- Result of a merge: the list of written lines, or an exception together
with the lines written before it was raised. -/
inductive MergeRes where
  | ok (written : List String)
  | err (e : MergeErr) (written : List String)
deriving DecidableEq, Repr

/-- Lines written during this (partial or complete) merge. -/
def MergeRes.written : MergeRes → List String
  | .ok w => w
  | .err _ w => w

/-- Prefix the lines already written this iteration onto the result of the
rest of the loop. -/
def MergeRes.prepend (pre : List String) : MergeRes → MergeRes
  | .ok w => .ok (pre ++ w)
  | .err e w => .err e (pre ++ w)

/-- `fd_out.write(s)`: contributes a line when `s` is nonempty; writing the
`""` returned by `readline` at end of file adds nothing to the file. -/
def emit (s : String) : List String := if s = "" then [] else [s]

/-- The top of the merge loop:
`line = fd.readline() if not line else line`.  A held pending line is kept;
otherwise one line is read, with `""` signalling an exhausted stream. -/
def refresh (p : Option String) (xs : List String) : String × List String :=
  match p with
  | some l => (l, xs)
  | none =>
    match xs with
    | [] => ("", [])
    | l :: ls => (l, ls)

/-- Unread lines of one side, counting a held pending line: the loop consumes
at least one of these per iteration, so `merge_fuel` below always suffices
(`merge_go_total`). -/
def sideWeight (p : Option String) (xs : List String) : Nat :=
  p.toList.length + xs.length

/-- The body of `LogsMerger.merge`'s `while True` loop.  `pa`/`pb` are the
pending buffers `line_a`/`line_b` (`none` = consumed, to be re-read at the
top of the loop), `as`/`bs` the unread lines of the two streams.  `fuel`
bounds the number of iterations; `none` means the bound was hit, which
`merge_go_total` proves never happens from `logs_merge`.

Decision table, exactly as in the source:
`if not time_b or (time_a and time_a < time_b)` drain A until `time_b` then
write B's line; `elif not time_a or time_a > time_b` symmetric; `else` (equal
times) write A's line then B's line.  Python evaluates
`get_log_time(line_a)` before `get_log_time(line_b)`, and `datetime`
comparison agrees with comparison of `DateTime.key`. -/
def merge_go : Nat → Option String → Option String → List String → List String → Option MergeRes
  | 0, _, _, _, _ => none
  | fuel + 1, pa, pb, as, bs =>
    match refresh pa as, refresh pb bs with
    | (la, as1), (lb, bs1) =>
      if la = "" ∧ lb = "" then some (.ok [])
      else
        match get_log_time la, get_log_time lb with
        | .error e, _ => some (.err e [])
        | .ok _, .error e => some (.err e [])
        | .ok _, .ok none =>
          (match write_logs_until none as1 with
           | .err e w => some (.err e (la :: w))
           | .ok pa2 as2 w =>
             (merge_go fuel pa2 none as2 bs1).map (MergeRes.prepend (la :: (w ++ emit lb))))
        | .ok (some a), .ok (some b) =>
          if a.key < b.key then
            match write_logs_until (some b) as1 with
            | .err e w => some (.err e (la :: w))
            | .ok pa2 as2 w =>
              (merge_go fuel pa2 none as2 bs1).map (MergeRes.prepend (la :: (w ++ emit lb)))
          else if b.key < a.key then
            match write_logs_until (some a) bs1 with
            | .err e w => some (.err e (lb :: w))
            | .ok pb2 bs2 w =>
              (merge_go fuel none pb2 as1 bs2).map (MergeRes.prepend (lb :: (w ++ emit la)))
          else
            (merge_go fuel none none as1 bs1).map (MergeRes.prepend [la, lb])
        | .ok none, .ok (some _) =>
          (match write_logs_until none bs1 with
           | .err e w => some (.err e (lb :: w))
           | .ok pb2 bs2 w =>
             (merge_go fuel none pb2 as1 bs2).map (MergeRes.prepend (lb :: (w ++ emit la))))

/-- Enough fuel for `merge_go` (proved in `merge_go_total`). -/
def merge_fuel (as bs : List String) : Nat := as.length + bs.length + 1

/-- `LogsMerger.merge`: run the loop on the two input files (given as their
lists of lines, both buffers initially `None`).  The `none` fallback is dead
code by `merge_go_total`. -/
def logs_merge (as bs : List String) : MergeRes :=
  match merge_go (merge_fuel as bs) none none as bs with
  | some r => r
  | none => MergeRes.ok []

/-! ## Derived notions used to state the claims -/

/-- The line sequence a stream side still holds: its pending buffer (at most
one line, by the type) followed by its unread lines. -/
def sideLines (p : Option String) (xs : List String) : List String :=
  p.toList ++ xs

/-- The timestamp of a line, when one can be extracted without an error. -/
def extractTime (l : String) : Option DateTime :=
  match get_log_time l with
  | .ok t => t
  | .error _ => none

/-- The comparison key of a line, when one can be extracted. -/
def lineKey (l : String) : Option Nat :=
  match get_log_time l with
  | .ok (some t) => some t.key
  | _ => none

/-- Keys of the lines with determinable timestamps, in order. -/
def keysOf (xs : List String) : List Nat := xs.filterMap lineKey

/-- Every line parses to a timestamp. -/
abbrev AllParse (xs : List String) : Prop :=
  ∀ l ∈ xs, (extractTime l).isSome

/-- Lines read from a real file are nonempty (`readline` returns `""` only at
end of file). -/
abbrev BlankFree (xs : List String) : Prop := ∀ l ∈ xs, l ≠ ""

/-- Sorted ascending by extracted timestamp. -/
abbrev TimeSorted (xs : List String) : Prop := (keysOf xs).Pairwise (· ≤ ·)

/-! ## `LogsMerger.parse_args` (argument validation and output pre-cleaning) -/

/-- `path.endswith(".jsonl")`. -/
def strEndsWith (s suffix : String) : Bool :=
  List.isSuffixOf suffix.toList s.toList

/-- The file system, as the list of paths for which `os.path.isfile` holds. -/
def isfile (fs : List String) (p : String) : Bool := fs.contains p

/-- `os.remove`. -/
def removeFile (fs : List String) (p : String) : List String :=
  fs.filter (fun q => !(q == p))

/-- `LogsMerger.validate_output`: a `ValueError` (here `none`) unless the
path is nonempty and ends in `.jsonl`.  (`path is None` cannot arise for a
string argument with a string default.) -/
def validate_output (path : String) : Option String :=
  if path = "" || !(strEndsWith path ".jsonl") then none else some path

/-- `LogsMerger.validate_input`: as `validate_output`, and the file must
exist. -/
def validate_input (fs : List String) (path : String) : Option String :=
  if path = "" || !(strEndsWith path ".jsonl") || !(isfile fs path) then none
  else some path

/-- Errors raised while processing arguments (argparse type-validation
failures and the explicit `ValueError("Files shouldn't be the same")`). -/
inductive ArgErr where
  | invalidArg (p : String)
  | samePaths
deriving DecidableEq, Repr

/-- `LogsMerger.parse_args` on the three path arguments and the current file
system.  The two inputs and the output are validated (argparse runs the
`type=` callables; any failure aborts before anything else happens), then
`len(set([log_a, log_b, output])) < 3` raises, and only after that check
passes is a pre-existing file at the output path deleted.  Both outcomes
return the resulting file system; an error leaves it untouched. -/
def parse_args (log_a log_b output : String) (fs : List String) :
    Except (ArgErr × List String) ((String × String × String) × List String) :=
  match validate_input fs log_a with
  | none => .error (.invalidArg log_a, fs)
  | some a =>
    match validate_input fs log_b with
    | none => .error (.invalidArg log_b, fs)
    | some b =>
      match validate_output output with
      | none => .error (.invalidArg output, fs)
      | some o =>
        if a = b ∨ a = o ∨ b = o then .error (.samePaths, fs)
        else .ok ((a, b, o), if isfile fs o then removeFile fs o else fs)

/-! ## Concrete records used by witnesses and counterexamples -/

def dt0900 : DateTime := ⟨2021, 1, 1, 9, 0, 0⟩

def dt1000 : DateTime := ⟨2021, 1, 1, 10, 0, 0⟩

def dt1002 : DateTime := ⟨2021, 1, 1, 10, 2, 0⟩

def dt1005 : DateTime := ⟨2021, 1, 1, 10, 5, 0⟩

def lineA1 : String := "\x7b\"timestamp\": \"2021-01-01 10:00:00\", \"id\": \"a1\"\x7d"

def lineA2 : String := "\x7b\"timestamp\": \"2021-01-01 10:02:00\", \"id\": \"a2\"\x7d"

def lineA3 : String := "\x7b\"timestamp\": \"2021-01-01 10:05:00\", \"id\": \"a3\"\x7d"

def lineB0 : String := "\x7b\"timestamp\": \"2021-01-01 09:00:00\", \"id\": \"b0\"\x7d"

def lineB1 : String := "\x7b\"timestamp\": \"2021-01-01 10:00:00\", \"id\": \"b1\"\x7d"

def lineB2 : String := "\x7b\"timestamp\": \"2021-01-01 10:02:00\", \"id\": \"b2\"\x7d"

def badLine : String := "not-json"

/-- A timestamp with fractional seconds appended to the fixed pattern. -/
def fracTs (d : Nat) : String := "2021-01-01 10:00:00." ++ toString d

/-- A well-formed JSON record whose timestamp carries fractional seconds. -/
def fracLine (d : Nat) : String :=
  "\x7b\"timestamp\": \"" ++ fracTs d ++ "\"\x7d"

/-! ## Basic lemmas -/

theorem get_log_time_blank : get_log_time "" = .ok none := rfl

theorem get_log_time_ok_none {l : String} (h : get_log_time l = .ok none) : l = "" := by
  by_contra hne
  rw [get_log_time, if_neg hne] at h
  split at h
  · simp at h
  · split at h
    · split at h <;> simp at h
    · simp at h
    · simp at h
  · simp at h

theorem get_log_time_some_ne {l : String} {t : DateTime}
    (h : get_log_time l = .ok (some t)) : l ≠ "" := by
  intro he
  subst he
  rw [get_log_time_blank] at h
  simp at h

theorem refresh_cases {p : Option String} {xs : List String} {l : String} {xs1 : List String}
    (h : refresh p xs = (l, xs1)) :
    (p = some l ∧ xs1 = xs) ∨ (p = none ∧ xs = l :: xs1) ∨
      (p = none ∧ xs = [] ∧ l = "" ∧ xs1 = []) := by
  cases p with
  | some a =>
    rw [refresh] at h
    injection h with h1 h2
    exact Or.inl ⟨by rw [h1], h2.symm⟩
  | none =>
    cases xs with
    | nil =>
      rw [refresh] at h
      injection h with h1 h2
      exact Or.inr (Or.inr ⟨rfl, rfl, h1.symm, h2.symm⟩)
    | cons x xs =>
      rw [refresh] at h
      injection h with h1 h2
      exact Or.inr (Or.inl ⟨rfl, by rw [h1, h2]⟩)

/-- A nonempty line produced by `refresh` beheads the side's held lines. -/
theorem refresh_lines {p : Option String} {xs : List String} {l : String} {xs1 : List String}
    (h : refresh p xs = (l, xs1)) (hl : l ≠ "") :
    sideLines p xs = l :: xs1 := by
  rcases refresh_cases h with ⟨h1, h2⟩ | ⟨h1, h2⟩ | ⟨_, _, h3, _⟩
  · subst h1 h2; simp [sideLines]
  · subst h1 h2; simp [sideLines]
  · exact absurd h3 hl

/-- A blank line from `refresh` means the side is exhausted, provided the
side's lines are the lines of a real file (never `""`). -/
theorem refresh_blank {p : Option String} {xs : List String} {xs1 : List String}
    (h : refresh p xs = ("", xs1)) (hbf : BlankFree (sideLines p xs)) :
    sideLines p xs = [] ∧ xs1 = [] := by
  rcases refresh_cases h with ⟨h1, _⟩ | ⟨h1, h2⟩ | ⟨h1, h2, _, h4⟩
  · subst h1; exact absurd rfl (hbf "" (by simp [sideLines]))
  · subst h1 h2; exact absurd rfl (hbf "" (by simp [sideLines]))
  · subst h1 h2 h4; simp [sideLines]

/-- With no stop time the drain writes every remaining line verbatim, reads
the stream to its end, never consults `get_log_time` and never raises. -/
theorem wlu_none_eq (xs : List String) :
    write_logs_until none xs = .ok none [] xs := by
  induction xs with
  | nil => rfl
  | cons l ls ih => rw [write_logs_until, ih]

/-- Every line the drain read went to exactly one place: written to the
output, returned as the (at most one) pending line, or left unread. -/
theorem wlu_split {st : Option DateTime} :
    ∀ {xs : List String} {p rest w},
      write_logs_until st xs = .ok p rest w → xs = w ++ p.toList ++ rest := by
  intro xs
  induction xs with
  | nil =>
    intro p rest w h
    cases st <;> rw [write_logs_until] at h <;> cases h <;> simp
  | cons l ls ih =>
    intro p rest w h
    cases st with
    | none =>
      rw [write_logs_until] at h
      split at h
      · rename_i p2 rest2 w2 hw
        cases h
        simpa using ih hw
      · exact absurd h (by simp)
    | some st =>
      rw [write_logs_until] at h
      split at h
      · exact absurd h (by simp)
      · exact absurd h (by simp)
      · split at h
        · cases h
          simp
        · split at h
          · rename_i p2 rest2 w2 hw
            cases h
            simpa using ih hw
          · exact absurd h (by simp)

/-- If the drain returned `None` it had read its stream to the end. -/
theorem wlu_pending_none {st : Option DateTime} :
    ∀ {xs : List String} {rest w},
      write_logs_until st xs = .ok none rest w → rest = [] := by
  intro xs
  induction xs with
  | nil =>
    intro rest w h
    cases st <;> rw [write_logs_until] at h <;> cases h <;> rfl
  | cons l ls ih =>
    intro rest w h
    cases st with
    | none =>
      rw [write_logs_until] at h
      split at h
      · rename_i p2 rest2 w2 hw
        cases h
        exact ih hw
      · exact absurd h (by simp)
    | some st =>
      rw [write_logs_until] at h
      split at h
      · exact absurd h (by simp)
      · exact absurd h (by simp)
      · split at h
        · exact absurd h (by simp)
        · split at h
          · rename_i p2 rest2 w2 hw
            cases h
            exact ih hw
          · exact absurd h (by simp)

/-- Every line the drain wrote under a stop time had a timestamp, not past
the stop time: the source stops on `get_log_time(line) > stop_time`, so lines
with time `≤ stop_time` (including equality) are written. -/
theorem wlu_written_le {st : DateTime} :
    ∀ {xs : List String} {p rest w},
      write_logs_until (some st) xs = .ok p rest w →
      ∀ l ∈ w, ∃ t, get_log_time l = .ok (some t) ∧ t.key ≤ st.key := by
  intro xs
  induction xs with
  | nil =>
    intro p rest w h
    rw [write_logs_until] at h
    cases h
    intro l hl
    simp at hl
  | cons l ls ih =>
    intro p rest w h
    rw [write_logs_until] at h
    split at h
    · exact absurd h (by simp)
    · exact absurd h (by simp)
    · rename_i t hg
      split at h
      · cases h
        intro x hx
        simp at hx
      · rename_i hnlt
        split at h
        · rename_i p2 rest2 w2 hw
          cases h
          intro x hx
          rcases List.mem_cons.1 hx with hx | hx
          · subst hx
            exact ⟨t, hg, Nat.le_of_not_lt hnlt⟩
          · exact ih hw x hx
        · exact absurd h (by simp)

/-- The line the drain stopped at (and returned, unwritten) has a timestamp
strictly past the stop time. -/
theorem wlu_pending_gt {st : DateTime} :
    ∀ {xs : List String} {y rest w},
      write_logs_until (some st) xs = .ok (some y) rest w →
      ∃ t, get_log_time y = .ok (some t) ∧ st.key < t.key := by
  intro xs
  induction xs with
  | nil =>
    intro y rest w h
    rw [write_logs_until] at h
    cases h
  | cons l ls ih =>
    intro y rest w h
    rw [write_logs_until] at h
    split at h
    · exact absurd h (by simp)
    · exact absurd h (by simp)
    · rename_i t hg
      split at h
      · rename_i hlt
        cases h
        exact ⟨t, hg, hlt⟩
      · split at h
        · rename_i p2 rest2 w2 hw
          cases h
          exact ih hw
        · exact absurd h (by simp)

/-- Also on the failure path, every line written by the drain came from its
input stream. -/
theorem wlu_err_written {st : Option DateTime} :
    ∀ {xs : List String} {e w},
      write_logs_until st xs = .err e w → ∀ l ∈ w, l ∈ xs := by
  intro xs
  induction xs with
  | nil =>
    intro e w h
    cases st <;> rw [write_logs_until] at h <;> cases h
  | cons l ls ih =>
    intro e w h
    cases st with
    | none =>
      rw [write_logs_until] at h
      split at h
      · exact absurd h (by simp)
      · rename_i e2 w2 hw
        cases h
        intro x hx
        rcases List.mem_cons.1 hx with hx | hx
        · subst hx; simp
        · exact List.mem_cons_of_mem _ (ih hw x hx)
    | some st =>
      rw [write_logs_until] at h
      split at h
      · cases h
        intro x hx
        simp at hx
      · cases h
        intro x hx
        simp at hx
      · split at h
        · exact absurd h (by simp)
        · split at h
          · exact absurd h (by simp)
          · rename_i e2 w2 hw
            cases h
            intro x hx
            rcases List.mem_cons.1 hx with hx | hx
            · subst hx; simp
            · exact List.mem_cons_of_mem _ (ih hw x hx)

/-! ## Termination: `merge_fuel` iterations always suffice -/


theorem refresh_weight {p : Option String} {xs : List String} {l : String} {xs1 : List String}
    (h : refresh p xs = (l, xs1)) (hl : l ≠ "") :
    sideWeight p xs = xs1.length + 1 := by
  rcases refresh_cases h with ⟨h1, h2⟩ | ⟨h1, h2⟩ | ⟨_, _, h3, _⟩
  · subst h1 h2; simp [sideWeight]; omega
  · subst h1 h2; simp [sideWeight]
  · exact absurd h3 hl

theorem refresh_weight_ge {p : Option String} {xs : List String} {l : String} {xs1 : List String}
    (h : refresh p xs = (l, xs1)) : xs1.length ≤ sideWeight p xs := by
  rcases refresh_cases h with ⟨h1, h2⟩ | ⟨h1, h2⟩ | ⟨h1, h2, _, h4⟩
  · subst h1 h2; simp [sideWeight]
  · subst h1 h2; simp [sideWeight]
  · subst h1 h2 h4; simp [sideWeight]

theorem wlu_weight {st : Option DateTime} {xs : List String} {p rest w}
    (h : write_logs_until st xs = .ok p rest w) :
    sideWeight p rest + w.length = xs.length := by
  have hs := wlu_split h
  rw [hs]
  simp [sideWeight]
  omega


/-- Every loop iteration consumes at least one held line of one of the two
sides, so `merge_go` never runs out of fuel when started with more fuel than
there are held lines: the Python `while True` loop terminates. -/
theorem merge_go_total :
    ∀ (fuel : Nat) (pa pb : Option String) (as bs : List String),
      sideWeight pa as + sideWeight pb bs < fuel →
      (merge_go fuel pa pb as bs).isSome := by
  intro fuel
  induction fuel with
  | zero => intro pa pb as bs h; omega
  | succ fuel ih =>
    intro pa pb as bs hf
    rw [merge_go]
    split
    rename_i pairA pairB la as1 lb bs1 h1 h2
    by_cases hbreak : la = "" ∧ lb = ""
    · rw [if_pos hbreak]; simp
    · rw [if_neg hbreak]
      split
      · simp
      · simp
      · rename_i ta hga hgb
        have hlb : lb = "" := get_log_time_ok_none hgb
        have hla : la ≠ "" := fun he => hbreak ⟨he, hlb⟩
        split
        · rename_i e w hw
          rw [wlu_none_eq] at hw
          exact absurd hw (by simp)
        · rename_i pa2 as2 w hw
          rw [wlu_none_eq] at hw
          injection hw with hp hr hw2
          subst hp hr
          have e1 := refresh_weight h1 hla
          have e2 := refresh_weight_ge h2
          have hrec := ih none none [] bs1 (by simp [sideWeight] at e1 e2 hf ⊢; omega)
          rcases Option.isSome_iff_exists.1 hrec with ⟨r, hr2⟩
          rw [hr2]
          simp
      · rename_i a b hga hgb
        have hla : la ≠ "" := get_log_time_some_ne hga
        have hlb : lb ≠ "" := get_log_time_some_ne hgb
        have e1 := refresh_weight h1 hla
        have e2 := refresh_weight h2 hlb
        split
        · split
          · simp
          · rename_i pa2 as2 w hw
            have e3 := wlu_weight hw
            have hrec := ih pa2 none as2 bs1 (by simp [sideWeight] at e1 e2 e3 hf ⊢; omega)
            rcases Option.isSome_iff_exists.1 hrec with ⟨r, hr2⟩
            rw [hr2]
            simp
        · split
          · split
            · simp
            · rename_i pb2 bs2 w hw
              have e3 := wlu_weight hw
              have hrec := ih none pb2 as1 bs2 (by simp [sideWeight] at e1 e2 e3 hf ⊢; omega)
              rcases Option.isSome_iff_exists.1 hrec with ⟨r, hr2⟩
              rw [hr2]
              simp
          · have hrec := ih none none as1 bs1 (by simp [sideWeight] at e1 e2 hf ⊢; omega)
            rcases Option.isSome_iff_exists.1 hrec with ⟨r, hr2⟩
            rw [hr2]
            simp
      · rename_i v hga hgb
        have hlb : lb ≠ "" := get_log_time_some_ne hgb
        split
        · rename_i e w hw
          rw [wlu_none_eq] at hw
          exact absurd hw (by simp)
        · rename_i pb2 bs2 w hw
          rw [wlu_none_eq] at hw
          injection hw with hp hr hw2
          subst hp hr
          have e1 := refresh_weight_ge h1
          have e2 := refresh_weight h2 hlb
          have hrec := ih none none as1 [] (by simp [sideWeight] at e1 e2 hf ⊢; omega)
          rcases Option.isSome_iff_exists.1 hrec with ⟨r, hr2⟩
          rw [hr2]
          simp

/-- `logs_merge` is the loop run with the always-sufficient fuel. -/
theorem merge_go_merge_fuel (as bs : List String) :
    merge_go (merge_fuel as bs) none none as bs = some (logs_merge as bs) := by
  have h := merge_go_total (merge_fuel as bs) none none as bs
    (by simp [sideWeight, merge_fuel])
  rcases Option.isSome_iff_exists.1 h with ⟨r, hr⟩
  rw [hr, logs_merge, hr]

/-! ## Provenance and counting lemmas for the loop -/

theorem prepend_written (pre : List String) (r : MergeRes) :
    (MergeRes.prepend pre r).written = pre ++ r.written := by
  cases r <;> rfl

theorem map_prepend_eq_some {pre : List String} {o : Option MergeRes} {r : MergeRes}
    (h : o.map (MergeRes.prepend pre) = some r) :
    ∃ r2, o = some r2 ∧ r = MergeRes.prepend pre r2 := by
  cases o with
  | none => simp at h
  | some r2 =>
    refine ⟨r2, rfl, ?_⟩
    simp at h
    rw [h]

theorem refresh_sub {p : Option String} {xs : List String} {l0 : String} {xs1 : List String}
    (h : refresh p xs = (l0, xs1)) : ∀ x ∈ xs1, x ∈ sideLines p xs := by
  rcases refresh_cases h with ⟨h1, h2⟩ | ⟨h1, h2⟩ | ⟨h1, h2, _, h4⟩
  · subst h1 h2; intro x hx; simp [sideLines, hx]
  · subst h1 h2; intro x hx; simp [sideLines, hx]
  · subst h1 h2 h4; intro x hx; simp at hx

theorem refresh_head {p : Option String} {xs : List String} {l : String} {xs1 : List String}
    (h : refresh p xs = (l, xs1)) (hl : l ≠ "") : l ∈ sideLines p xs := by
  rw [refresh_lines h hl]
  simp

/-- Every line a (partial or complete) merge run writes is a line of one of
the two sides. -/
theorem merge_go_written :
    ∀ (fuel : Nat) (pa pb : Option String) (as bs : List String) (r : MergeRes),
      merge_go fuel pa pb as bs = some r →
      ∀ l ∈ r.written, l ∈ sideLines pa as ∨ l ∈ sideLines pb bs := by
  intro fuel
  induction fuel with
  | zero =>
    intro pa pb as bs r h
    rw [merge_go] at h
    exact absurd h (by simp)
  | succ fuel ih =>
    intro pa pb as bs r h
    rw [merge_go] at h
    split at h
    rename_i pairA pairB la as1 lb bs1 h1 h2
    by_cases hbreak : la = "" ∧ lb = ""
    · rw [if_pos hbreak] at h
      cases h
      intro l hl
      simp [MergeRes.written] at hl
    · rw [if_neg hbreak] at h
      split at h
      · cases h
        intro l hl
        simp [MergeRes.written] at hl
      · cases h
        intro l hl
        simp [MergeRes.written] at hl
      · rename_i ta hga hgb
        have hlb : lb = "" := get_log_time_ok_none hgb
        have hla : la ≠ "" := fun he => hbreak ⟨he, hlb⟩
        split at h
        · rename_i e w hw
          rw [wlu_none_eq] at hw
          exact absurd hw (by simp)
        · rename_i pa2 as2 w hw
          rw [wlu_none_eq] at hw
          injection hw with hp hr hw2
          subst hp hr hw2
          rcases map_prepend_eq_some h with ⟨r2, hm, hr2⟩
          subst hr2
          intro l hl
          rw [prepend_written] at hl
          rcases List.mem_append.1 hl with hl | hl
          · rcases List.mem_cons.1 hl with hl | hl
            · subst hl
              exact Or.inl (refresh_head h1 hla)
            · rcases List.mem_append.1 hl with hl | hl
              · exact Or.inl (refresh_sub h1 l hl)
              · simp [emit, hlb] at hl
          · rcases ih none none [] bs1 r2 hm l hl with hs | hs
            · simp [sideLines] at hs
            · exact Or.inr (refresh_sub h2 l hs)
      · rename_i a b hga hgb
        have hla : la ≠ "" := get_log_time_some_ne hga
        have hlb : lb ≠ "" := get_log_time_some_ne hgb
        split at h
        · split at h
          · rename_i e w hw
            cases h
            intro l hl
            simp only [MergeRes.written] at hl
            rcases List.mem_cons.1 hl with hl | hl
            · subst hl
              exact Or.inl (refresh_head h1 hla)
            · exact Or.inl (refresh_sub h1 l (wlu_err_written hw l hl))
          · rename_i pa2 as2 w hw
            rcases map_prepend_eq_some h with ⟨r2, hm, hr2⟩
            subst hr2
            intro l hl
            rw [prepend_written] at hl
            rcases List.mem_append.1 hl with hl | hl
            · rcases List.mem_cons.1 hl with hl | hl
              · subst hl
                exact Or.inl (refresh_head h1 hla)
              · rcases List.mem_append.1 hl with hl | hl
                · have hsub := wlu_split hw
                  have : l ∈ as1 := by rw [hsub]; simp [hl]
                  exact Or.inl (refresh_sub h1 l this)
                · rw [emit, if_neg hlb] at hl
                  rcases List.mem_singleton.1 hl with hl
                  subst hl
                  exact Or.inr (refresh_head h2 hlb)
            · rcases ih pa2 none as2 bs1 r2 hm l hl with hs | hs
              · have hsub := wlu_split hw
                have : l ∈ as1 := by
                  rw [hsub]
                  simp [sideLines] at hs
                  simp [hs]
                exact Or.inl (refresh_sub h1 l this)
              · exact Or.inr (refresh_sub h2 l hs)
        · split at h
          · split at h
            · rename_i e w hw
              cases h
              intro l hl
              simp only [MergeRes.written] at hl
              rcases List.mem_cons.1 hl with hl | hl
              · subst hl
                exact Or.inr (refresh_head h2 hlb)
              · exact Or.inr (refresh_sub h2 l (wlu_err_written hw l hl))
            · rename_i pb2 bs2 w hw
              rcases map_prepend_eq_some h with ⟨r2, hm, hr2⟩
              subst hr2
              intro l hl
              rw [prepend_written] at hl
              rcases List.mem_append.1 hl with hl | hl
              · rcases List.mem_cons.1 hl with hl | hl
                · subst hl
                  exact Or.inr (refresh_head h2 hlb)
                · rcases List.mem_append.1 hl with hl | hl
                  · have hsub := wlu_split hw
                    have : l ∈ bs1 := by rw [hsub]; simp [hl]
                    exact Or.inr (refresh_sub h2 l this)
                  · rw [emit, if_neg hla] at hl
                    rcases List.mem_singleton.1 hl with hl
                    subst hl
                    exact Or.inl (refresh_head h1 hla)
              · rcases ih none pb2 as1 bs2 r2 hm l hl with hs | hs
                · exact Or.inl (refresh_sub h1 l hs)
                · have hsub := wlu_split hw
                  have : l ∈ bs1 := by
                    rw [hsub]
                    simp [sideLines] at hs
                    simp [hs]
                  exact Or.inr (refresh_sub h2 l this)
          · rcases map_prepend_eq_some h with ⟨r2, hm, hr2⟩
            subst hr2
            intro l hl
            rw [prepend_written] at hl
            rcases List.mem_append.1 hl with hl | hl
            · rcases List.mem_cons.1 hl with hl | hl
              · subst hl
                exact Or.inl (refresh_head h1 hla)
              · rcases List.mem_singleton.1 hl with hl
                subst hl
                exact Or.inr (refresh_head h2 hlb)
            · rcases ih none none as1 bs1 r2 hm l hl with hs | hs
              · exact Or.inl (refresh_sub h1 l hs)
              · exact Or.inr (refresh_sub h2 l hs)
      · rename_i v hga hgb
        have hlb : lb ≠ "" := get_log_time_some_ne hgb
        have hla : la = "" := get_log_time_ok_none hga
        split at h
        · rename_i e w hw
          rw [wlu_none_eq] at hw
          exact absurd hw (by simp)
        · rename_i pb2 bs2 w hw
          rw [wlu_none_eq] at hw
          injection hw with hp hr hw2
          subst hp hr hw2
          rcases map_prepend_eq_some h with ⟨r2, hm, hr2⟩
          subst hr2
          intro l hl
          rw [prepend_written] at hl
          rcases List.mem_append.1 hl with hl | hl
          · rcases List.mem_cons.1 hl with hl | hl
            · subst hl
              exact Or.inr (refresh_head h2 hlb)
            · rcases List.mem_append.1 hl with hl | hl
              · exact Or.inr (refresh_sub h2 l hl)
              · simp [emit, hla] at hl
          · rcases ih none none as1 [] r2 hm l hl with hs | hs
            · exact Or.inl (refresh_sub h1 l hs)
            · simp [sideLines] at hs

theorem prepend_ok {pre out : List String} {r2 : MergeRes}
    (h : MergeRes.ok out = MergeRes.prepend pre r2) :
    ∃ w2, r2 = .ok w2 ∧ out = pre ++ w2 := by
  cases r2 with
  | ok w2 =>
    refine ⟨w2, rfl, ?_⟩
    simpa [MergeRes.prepend] using h
  | err e w2 => simp [MergeRes.prepend] at h

theorem sideLines_length (p : Option String) (xs : List String) :
    (sideLines p xs).length = sideWeight p xs := by
  simp [sideLines, sideWeight]

/-- A completed merge run writes exactly as many lines as the two sides
hold: none dropped, none duplicated. -/
theorem merge_go_length :
    ∀ (fuel : Nat) (pa pb : Option String) (as bs : List String) (out : List String),
      merge_go fuel pa pb as bs = some (.ok out) →
      BlankFree (sideLines pa as) → BlankFree (sideLines pb bs) →
      out.length = (sideLines pa as).length + (sideLines pb bs).length := by
  intro fuel
  induction fuel with
  | zero =>
    intro pa pb as bs out h
    rw [merge_go] at h
    exact absurd h (by simp)
  | succ fuel ih =>
    intro pa pb as bs out h hbfA hbfB
    rw [merge_go] at h
    split at h
    rename_i pairA pairB la as1 lb bs1 h1 h2
    by_cases hbreak : la = "" ∧ lb = ""
    · rw [if_pos hbreak] at h
      cases h
      have hA := refresh_blank (hbreak.1 ▸ h1) hbfA
      have hB := refresh_blank (hbreak.2 ▸ h2) hbfB
      rw [hA.1, hB.1]
      rfl
    · rw [if_neg hbreak] at h
      split at h
      · exact absurd h (by simp)
      · exact absurd h (by simp)
      · rename_i ta hga hgb
        have hlb : lb = "" := get_log_time_ok_none hgb
        have hla : la ≠ "" := fun he => hbreak ⟨he, hlb⟩
        split at h
        · rename_i e w hw
          rw [wlu_none_eq] at hw
          exact absurd hw (by simp)
        · rename_i pa2 as2 w hw
          rw [wlu_none_eq] at hw
          injection hw with hp hr hw2
          subst hp hr hw2
          rcases map_prepend_eq_some h with ⟨r2, hm, hr2⟩
          rcases prepend_ok hr2 with ⟨w2, hw2, hout⟩
          subst hw2 hout
          have hB := refresh_blank (hlb ▸ h2) hbfB
          have hbs1 := hB.2
          subst hbs1
          have hrec := ih none none [] [] w2 hm
            (by intro l hl; simp [sideLines] at hl)
            (by intro l hl; simp [sideLines] at hl)
          rw [refresh_lines h1 hla, hB.1]
          simp [sideLines, emit, hlb] at hrec ⊢
          exact hrec
      · rename_i a b hga hgb
        have hla : la ≠ "" := get_log_time_some_ne hga
        have hlb : lb ≠ "" := get_log_time_some_ne hgb
        have hsubA : ∀ l ∈ as1, l ∈ sideLines pa as := refresh_sub h1
        have hsubB : ∀ l ∈ bs1, l ∈ sideLines pb bs := refresh_sub h2
        split at h
        · split at h
          · exact absurd h (by simp)
          · rename_i pa2 as2 w hw
            rcases map_prepend_eq_some h with ⟨r2, hm, hr2⟩
            rcases prepend_ok hr2 with ⟨w2, hw2, hout⟩
            subst hw2 hout
            have hsplit := wlu_split hw
            have hrec := ih pa2 none as2 bs1 w2 hm
              (by
                intro l hl
                refine hbfA l (hsubA l ?_)
                rw [hsplit]
                simp [sideLines] at hl
                rcases hl with hl | hl <;> simp [hl])
              (by intro l hl; exact hbfB l (hsubB l hl))
            rw [refresh_lines h1 hla, refresh_lines h2 hlb]
            have hlen : as1.length = w.length + (sideLines pa2 as2).length := by
              rw [hsplit]
              simp [sideLines]
            simp [sideLines, emit, hlb] at hrec ⊢
            simp [sideLines] at hlen
            omega
        · split at h
          · split at h
            · exact absurd h (by simp)
            · rename_i pb2 bs2 w hw
              rcases map_prepend_eq_some h with ⟨r2, hm, hr2⟩
              rcases prepend_ok hr2 with ⟨w2, hw2, hout⟩
              subst hw2 hout
              have hsplit := wlu_split hw
              have hrec := ih none pb2 as1 bs2 w2 hm
                (by intro l hl; exact hbfA l (hsubA l hl))
                (by
                  intro l hl
                  refine hbfB l (hsubB l ?_)
                  rw [hsplit]
                  simp [sideLines] at hl
                  rcases hl with hl | hl <;> simp [hl])
              rw [refresh_lines h1 hla, refresh_lines h2 hlb]
              have hlen : bs1.length = w.length + (sideLines pb2 bs2).length := by
                rw [hsplit]
                simp [sideLines]
              simp [sideLines, emit, hla] at hrec ⊢
              simp [sideLines] at hlen
              omega
          · rcases map_prepend_eq_some h with ⟨r2, hm, hr2⟩
            rcases prepend_ok hr2 with ⟨w2, hw2, hout⟩
            subst hw2 hout
            have hrec := ih none none as1 bs1 w2 hm
              (by intro l hl; exact hbfA l (hsubA l hl))
              (by intro l hl; exact hbfB l (hsubB l hl))
            rw [refresh_lines h1 hla, refresh_lines h2 hlb]
            simp [sideLines] at hrec ⊢
            omega
      · rename_i v hga hgb
        have hlb : lb ≠ "" := get_log_time_some_ne hgb
        have hla : la = "" := get_log_time_ok_none hga
        split at h
        · rename_i e w hw
          rw [wlu_none_eq] at hw
          exact absurd hw (by simp)
        · rename_i pb2 bs2 w hw
          rw [wlu_none_eq] at hw
          injection hw with hp hr hw2
          subst hp hr hw2
          rcases map_prepend_eq_some h with ⟨r2, hm, hr2⟩
          rcases prepend_ok hr2 with ⟨w2, hw2, hout⟩
          subst hw2 hout
          have hA := refresh_blank (hla ▸ h1) hbfA
          have has1 := hA.2
          subst has1
          have hrec := ih none none [] [] w2 hm
            (by intro l hl; simp [sideLines] at hl)
            (by intro l hl; simp [sideLines] at hl)
          rw [refresh_lines h2 hlb, hA.1]
          simp [sideLines, emit, hla] at hrec ⊢
          exact hrec

/-! ## Key bookkeeping for the order invariant -/

theorem lineKey_eq {l : String} {k : Nat} {t : DateTime}
    (h1 : lineKey l = some k) (h2 : get_log_time l = .ok (some t)) : k = t.key := by
  rw [lineKey, h2] at h1
  injection h1 with h1
  exact h1.symm

theorem keysOf_cons {l : String} {t : DateTime} (xs : List String)
    (h : get_log_time l = .ok (some t)) :
    keysOf (l :: xs) = t.key :: keysOf xs := by
  simp [keysOf, lineKey, h]

theorem keysOf_append (xs ys : List String) :
    keysOf (xs ++ ys) = keysOf xs ++ keysOf ys := by
  simp [keysOf]

theorem keysOf_mem {xs : List String} {k : Nat} (h : k ∈ keysOf xs) :
    ∃ l ∈ xs, lineKey l = some k := by
  simpa [keysOf] using List.mem_filterMap.1 h

theorem mem_keysOf {xs : List String} {l : String} {t : DateTime}
    (hl : l ∈ xs) (h : get_log_time l = .ok (some t)) : t.key ∈ keysOf xs := by
  apply List.mem_filterMap.2
  exact ⟨l, hl, by simp [lineKey, h]⟩

theorem extractTime_eq {l : String} {t : DateTime} (h : extractTime l = some t) :
    get_log_time l = .ok (some t) := by
  rw [extractTime] at h
  split at h
  · rename_i t0 hg
    rw [h] at hg
    exact hg
  · exact absurd h (by simp)

theorem AllParse_get {xs : List String} {l : String} (h : AllParse xs) (hl : l ∈ xs) :
    ∃ t, get_log_time l = .ok (some t) := by
  rcases Option.isSome_iff_exists.1 (h l hl) with ⟨t, ht⟩
  exact ⟨t, extractTime_eq ht⟩

theorem AllParse_BlankFree {xs : List String} (h : AllParse xs) : BlankFree xs := by
  intro l hl
  rcases AllParse_get h hl with ⟨t, ht⟩
  exact get_log_time_some_ne ht

theorem AllParse_sub {xs ys : List String} (hsub : ∀ l ∈ ys, l ∈ xs)
    (h : AllParse xs) : AllParse ys :=
  fun l hl => h l (hsub l hl)

theorem merge_go_nil {fuel : Nat} {r : MergeRes}
    (h : merge_go fuel none none [] [] = some r) : r = .ok [] := by
  cases fuel with
  | zero => rw [merge_go] at h; exact absurd h (by simp)
  | succ fuel =>
    rw [merge_go] at h
    simp [refresh] at h
    exact h.symm

theorem wlu_keys_le {st : DateTime} {xs : List String} {p rest w}
    (hw : write_logs_until (some st) xs = .ok p rest w) :
    ∀ k ∈ keysOf w, k ≤ st.key := by
  intro k hk
  rcases keysOf_mem hk with ⟨l, hl, hlk⟩
  rcases wlu_written_le hw l hl with ⟨t, hgt, hle⟩
  rw [lineKey_eq hlk hgt]
  exact hle

/-- Order invariant of the loop.  If every line both sides hold parses and
each side is sorted ascending by timestamp, then a completed run emits keys
pairwise `≤`; moreover any common lower bound of the keys held by the two
sides bounds every emitted key (the second conjunct drives the induction). -/
theorem merge_go_sorted :
    ∀ (fuel : Nat) (pa pb : Option String) (as bs : List String) (out : List String),
      merge_go fuel pa pb as bs = some (.ok out) →
      AllParse (sideLines pa as) → AllParse (sideLines pb bs) →
      TimeSorted (sideLines pa as) → TimeSorted (sideLines pb bs) →
      (keysOf out).Pairwise (· ≤ ·) ∧
        ∀ lo : Nat, (∀ k ∈ keysOf (sideLines pa as), lo ≤ k) →
          (∀ k ∈ keysOf (sideLines pb bs), lo ≤ k) →
          ∀ k ∈ keysOf out, lo ≤ k := by
  intro fuel
  induction fuel with
  | zero =>
    intro pa pb as bs out h
    rw [merge_go] at h
    exact absurd h (by simp)
  | succ fuel ih =>
    intro pa pb as bs out h hpA hpB sA sB
    rw [merge_go] at h
    split at h
    rename_i pairA pairB la as1 lb bs1 h1 h2
    by_cases hbreak : la = "" ∧ lb = ""
    · rw [if_pos hbreak] at h
      cases h
      exact ⟨by simp [keysOf], fun lo _ _ k hk => by simp [keysOf] at hk⟩
    · rw [if_neg hbreak] at h
      split at h
      · exact absurd h (by simp)
      · exact absurd h (by simp)
      · rename_i ta hga hgb
        have hlb : lb = "" := get_log_time_ok_none hgb
        have hla : la ≠ "" := fun he => hbreak ⟨he, hlb⟩
        have hSA := refresh_lines h1 hla
        split at h
        · rename_i e w hw
          rw [wlu_none_eq] at hw
          exact absurd hw (by simp)
        · rename_i pa2 as2 w hw
          rw [wlu_none_eq] at hw
          injection hw with hp hr hw2
          subst hp hr hw2
          rcases map_prepend_eq_some h with ⟨r2, hm, hr2⟩
          rcases prepend_ok hr2 with ⟨w2, hw2, hout⟩
          subst hw2 hout
          have hB := refresh_blank (hlb ▸ h2) (AllParse_BlankFree hpB)
          have hbs1 := hB.2
          subst hbs1
          have hw2nil : w2 = [] := by
            have hn := merge_go_nil hm
            injection hn with hn
          subst hw2nil
          have hout_eq : (la :: (as1 ++ emit lb) ++ ([] : List String)) = sideLines pa as := by
            simp [emit, hlb, hSA]
          rw [hout_eq]
          exact ⟨sA, fun lo hloA _ => hloA⟩
      · rename_i a b hga hgb
        have hla : la ≠ "" := get_log_time_some_ne hga
        have hlb : lb ≠ "" := get_log_time_some_ne hgb
        have hSA := refresh_lines h1 hla
        have hSB := refresh_lines h2 hlb
        have hkSA : keysOf (sideLines pa as) = a.key :: keysOf as1 := by
          rw [hSA]; exact keysOf_cons as1 hga
        have hkSB : keysOf (sideLines pb bs) = b.key :: keysOf bs1 := by
          rw [hSB]; exact keysOf_cons bs1 hgb
        have hpA1 : AllParse as1 := AllParse_sub (refresh_sub h1) hpA
        have hpB1 : AllParse bs1 := AllParse_sub (refresh_sub h2) hpB
        replace sA : (a.key :: keysOf as1).Pairwise (· ≤ ·) := by
          rw [← hkSA]; exact sA
        replace sB : (b.key :: keysOf bs1).Pairwise (· ≤ ·) := by
          rw [← hkSB]; exact sB
        obtain ⟨haall, hsas1⟩ := List.pairwise_cons.1 sA
        obtain ⟨hball, hsbs1⟩ := List.pairwise_cons.1 sB
        split at h
        · rename_i hab
          split at h
          · exact absurd h (by simp)
          · rename_i pa2 as2 w hw
            rcases map_prepend_eq_some h with ⟨r2, hm, hr2⟩
            rcases prepend_ok hr2 with ⟨w2, hw2, hout⟩
            subst hw2 hout
            have hsplit := wlu_split hw
            have hkas1 : keysOf as1 = keysOf w ++ keysOf (sideLines pa2 as2) := by
              rw [hsplit, List.append_assoc, keysOf_append]
              rfl
            rw [hkas1] at hsas1
            obtain ⟨hwpw, hrestpw, hcrossA⟩ := List.pairwise_append.1 hsas1
            have hwle := wlu_keys_le hw
            have hrest_lo : ∀ k ∈ keysOf (sideLines pa2 as2), b.key ≤ k := by
              cases pa2 with
              | none =>
                have h0 : as2 = [] := wlu_pending_none hw
                subst h0
                intro k hk
                simp [sideLines, keysOf] at hk
              | some y =>
                rcases wlu_pending_gt hw with ⟨ty, hgy, hty⟩
                have hkeq : keysOf (sideLines (some y) as2) = ty.key :: keysOf as2 := by
                  show keysOf (y :: as2) = _
                  exact keysOf_cons as2 hgy
                intro k hk
                rw [hkeq] at hk
                rcases List.mem_cons.1 hk with hk | hk
                · subst hk; exact Nat.le_of_lt hty
                · have hy : ty.key ≤ k := by
                    rw [hkeq] at hrestpw
                    exact (List.pairwise_cons.1 hrestpw).1 k hk
                  omega
            have hrecA_parse : AllParse (sideLines pa2 as2) := by
              refine AllParse_sub ?_ hpA1
              intro l hl
              rw [hsplit]
              rcases List.mem_append.1 (show l ∈ pa2.toList ++ as2 from hl) with hl | hl
              · exact List.mem_append.2 (Or.inl (List.mem_append.2 (Or.inr hl)))
              · exact List.mem_append.2 (Or.inr hl)
            have hrec := ih pa2 none as2 bs1 w2 hm hrecA_parse
              (show AllParse (sideLines none bs1) from hpB1)
              (show TimeSorted (sideLines pa2 as2) from hrestpw)
              (show TimeSorted (sideLines none bs1) from hsbs1)
            have hw2lo : ∀ k ∈ keysOf w2, b.key ≤ k :=
              hrec.2 b.key hrest_lo
                (show ∀ k ∈ keysOf (sideLines none bs1), b.key ≤ k from hball)
            have hkout : keysOf (la :: (w ++ emit lb) ++ w2) =
                a.key :: (keysOf w ++ (b.key :: keysOf w2)) := by
              rw [emit, if_neg hlb]
              rw [show (la :: (w ++ [lb]) ++ w2) = la :: ((w ++ [lb]) ++ w2) from rfl]
              rw [keysOf_cons _ hga, keysOf_append, keysOf_append, keysOf_cons _ hgb]
              simp [keysOf]
            constructor
            · rw [hkout]
              refine List.pairwise_cons.2 ⟨?_, ?_⟩
              · intro k hk
                rcases List.mem_append.1 hk with hk | hk
                · exact haall k (by rw [hkas1]; exact List.mem_append.2 (Or.inl hk))
                · rcases List.mem_cons.1 hk with hk | hk
                  · subst hk; exact Nat.le_of_lt hab
                  · exact Nat.le_trans (Nat.le_of_lt hab) (hw2lo k hk)
              · refine List.pairwise_append.2 ⟨hwpw, List.pairwise_cons.2 ⟨hw2lo, hrec.1⟩, ?_⟩
                intro k1 hk1 k2 hk2
                have hk1b := hwle k1 hk1
                rcases List.mem_cons.1 hk2 with hk2 | hk2
                · subst hk2; exact hk1b
                · exact Nat.le_trans hk1b (hw2lo k2 hk2)
            · intro lo hloA hloB k hk
              rw [hkout] at hk
              have hloa : lo ≤ a.key := hloA a.key (by rw [hkSA]; simp)
              have hlob : lo ≤ b.key := hloB b.key (by rw [hkSB]; simp)
              rcases List.mem_cons.1 hk with hk | hk
              · subst hk; exact hloa
              · rcases List.mem_append.1 hk with hk | hk
                · refine hloA k ?_
                  rw [hkSA]
                  refine List.mem_cons.2 (Or.inr ?_)
                  rw [hkas1]
                  exact List.mem_append.2 (Or.inl hk)
                · rcases List.mem_cons.1 hk with hk | hk
                  · subst hk; exact hlob
                  · exact Nat.le_trans hlob (hw2lo k hk)
        · split at h
          · rename_i hnab hba
            split at h
            · exact absurd h (by simp)
            · rename_i pb2 bs2 w hw
              rcases map_prepend_eq_some h with ⟨r2, hm, hr2⟩
              rcases prepend_ok hr2 with ⟨w2, hw2, hout⟩
              subst hw2 hout
              have hsplit := wlu_split hw
              have hkbs1 : keysOf bs1 = keysOf w ++ keysOf (sideLines pb2 bs2) := by
                rw [hsplit, List.append_assoc, keysOf_append]
                rfl
              rw [hkbs1] at hsbs1
              obtain ⟨hwpw, hrestpw, hcrossB⟩ := List.pairwise_append.1 hsbs1
              have hwle := wlu_keys_le hw
              have hrest_lo : ∀ k ∈ keysOf (sideLines pb2 bs2), a.key ≤ k := by
                cases pb2 with
                | none =>
                  have h0 : bs2 = [] := wlu_pending_none hw
                  subst h0
                  intro k hk
                  simp [sideLines, keysOf] at hk
                | some y =>
                  rcases wlu_pending_gt hw with ⟨ty, hgy, hty⟩
                  have hkeq : keysOf (sideLines (some y) bs2) = ty.key :: keysOf bs2 := by
                    show keysOf (y :: bs2) = _
                    exact keysOf_cons bs2 hgy
                  intro k hk
                  rw [hkeq] at hk
                  rcases List.mem_cons.1 hk with hk | hk
                  · subst hk; exact Nat.le_of_lt hty
                  · have hy : ty.key ≤ k := by
                      rw [hkeq] at hrestpw
                      exact (List.pairwise_cons.1 hrestpw).1 k hk
                    omega
              have hrecB_parse : AllParse (sideLines pb2 bs2) := by
                refine AllParse_sub ?_ hpB1
                intro l hl
                rw [hsplit]
                rcases List.mem_append.1 (show l ∈ pb2.toList ++ bs2 from hl) with hl | hl
                · exact List.mem_append.2 (Or.inl (List.mem_append.2 (Or.inr hl)))
                · exact List.mem_append.2 (Or.inr hl)
              have hrec := ih none pb2 as1 bs2 w2 hm
                (show AllParse (sideLines none as1) from hpA1)
                hrecB_parse
                (show TimeSorted (sideLines none as1) from hsas1)
                (show TimeSorted (sideLines pb2 bs2) from hrestpw)
              have hw2lo : ∀ k ∈ keysOf w2, a.key ≤ k :=
                hrec.2 a.key
                  (show ∀ k ∈ keysOf (sideLines none as1), a.key ≤ k from haall)
                  hrest_lo
              have hkout : keysOf (lb :: (w ++ emit la) ++ w2) =
                  b.key :: (keysOf w ++ (a.key :: keysOf w2)) := by
                rw [emit, if_neg hla]
                rw [show (lb :: (w ++ [la]) ++ w2) = lb :: ((w ++ [la]) ++ w2) from rfl]
                rw [keysOf_cons _ hgb, keysOf_append, keysOf_append, keysOf_cons _ hga]
                simp [keysOf]
              constructor
              · rw [hkout]
                refine List.pairwise_cons.2 ⟨?_, ?_⟩
                · intro k hk
                  rcases List.mem_append.1 hk with hk | hk
                  · exact hball k (by rw [hkbs1]; exact List.mem_append.2 (Or.inl hk))
                  · rcases List.mem_cons.1 hk with hk | hk
                    · subst hk; exact Nat.le_of_lt hba
                    · exact Nat.le_trans (Nat.le_of_lt hba) (hw2lo k hk)
                · refine List.pairwise_append.2 ⟨hwpw, List.pairwise_cons.2 ⟨hw2lo, hrec.1⟩, ?_⟩
                  intro k1 hk1 k2 hk2
                  have hk1a := hwle k1 hk1
                  rcases List.mem_cons.1 hk2 with hk2 | hk2
                  · subst hk2; exact hk1a
                  · exact Nat.le_trans hk1a (hw2lo k2 hk2)
              · intro lo hloA hloB k hk
                rw [hkout] at hk
                have hloa : lo ≤ a.key := hloA a.key (by rw [hkSA]; simp)
                have hlob : lo ≤ b.key := hloB b.key (by rw [hkSB]; simp)
                rcases List.mem_cons.1 hk with hk | hk
                · subst hk; exact hlob
                · rcases List.mem_append.1 hk with hk | hk
                  · refine hloB k ?_
                    rw [hkSB]
                    refine List.mem_cons.2 (Or.inr ?_)
                    rw [hkbs1]
                    exact List.mem_append.2 (Or.inl hk)
                  · rcases List.mem_cons.1 hk with hk | hk
                    · subst hk; exact hloa
                    · exact Nat.le_trans hloa (hw2lo k hk)
          · rename_i hnab hnba
            have hkeq : a.key = b.key := by omega
            rcases map_prepend_eq_some h with ⟨r2, hm, hr2⟩
            rcases prepend_ok hr2 with ⟨w2, hw2, hout⟩
            subst hw2 hout
            have hrec := ih none none as1 bs1 w2 hm
              (show AllParse (sideLines none as1) from hpA1)
              (show AllParse (sideLines none bs1) from hpB1)
              (show TimeSorted (sideLines none as1) from hsas1)
              (show TimeSorted (sideLines none bs1) from hsbs1)
            have hw2lo : ∀ k ∈ keysOf w2, a.key ≤ k :=
              hrec.2 a.key
                (show ∀ k ∈ keysOf (sideLines none as1), a.key ≤ k from haall)
                (show ∀ k ∈ keysOf (sideLines none bs1), a.key ≤ k from
                  fun k hk => by rw [hkeq]; exact hball k hk)
            have hkout : keysOf ([la, lb] ++ w2) = a.key :: b.key :: keysOf w2 := by
              rw [show ([la, lb] ++ w2) = la :: lb :: w2 from rfl]
              rw [keysOf_cons _ hga, keysOf_cons _ hgb]
            constructor
            · rw [hkout]
              refine List.pairwise_cons.2 ⟨?_, List.pairwise_cons.2 ⟨?_, hrec.1⟩⟩
              · intro k hk
                rcases List.mem_cons.1 hk with hk | hk
                · subst hk; omega
                · exact hw2lo k hk
              · intro k hk
                have := hw2lo k hk
                omega
            · intro lo hloA hloB k hk
              rw [hkout] at hk
              have hloa : lo ≤ a.key := hloA a.key (by rw [hkSA]; simp)
              have hlob : lo ≤ b.key := hloB b.key (by rw [hkSB]; simp)
              rcases List.mem_cons.1 hk with hk | hk
              · subst hk; exact hloa
              · rcases List.mem_cons.1 hk with hk | hk
                · subst hk; exact hlob
                · exact Nat.le_trans hloa (hw2lo k hk)
      · rename_i v hga hgb
        have hlb : lb ≠ "" := get_log_time_some_ne hgb
        have hla : la = "" := get_log_time_ok_none hga
        have hSB := refresh_lines h2 hlb
        split at h
        · rename_i e w hw
          rw [wlu_none_eq] at hw
          exact absurd hw (by simp)
        · rename_i pb2 bs2 w hw
          rw [wlu_none_eq] at hw
          injection hw with hp hr hw2
          subst hp hr hw2
          rcases map_prepend_eq_some h with ⟨r2, hm, hr2⟩
          rcases prepend_ok hr2 with ⟨w2, hw2, hout⟩
          subst hw2 hout
          have hA := refresh_blank (hla ▸ h1) (AllParse_BlankFree hpA)
          have has1 := hA.2
          subst has1
          have hw2nil : w2 = [] := by
            have hn := merge_go_nil hm
            injection hn with hn
          subst hw2nil
          have hout_eq : (lb :: (bs1 ++ emit la) ++ ([] : List String)) = sideLines pb bs := by
            simp [emit, hla, hSB]
          rw [hout_eq]
          exact ⟨sB, fun lo _ hloB => hloB⟩

/-! ## Claim C1 (tie determinism) -/

/-- C1 counterexample: stream A holds one record at 10:02:00 and stream B
holds records at 10:00:00 and 10:02:00.  A's record and B's second record
have exactly equal timestamps, yet the merge emits B's record *before* A's:
the B-drain step of the loop keeps lines whose time is not strictly greater
than A's head time (`get_log_time(line) > stop_time` is false on equality),
so the equal-timestamped B line is written before A's pending line.  This
falsifies "stream A's record is emitted before stream B's record" for every
equal-timestamp pair. -/
theorem c1_counterexample :
    logs_merge [lineA2] [lineB1, lineB2] = .ok [lineB1, lineB2, lineA2] ∧
    get_log_time lineA2 = .ok (some dt1002) ∧
    get_log_time lineB2 = .ok (some dt1002) :=
  ⟨by decide, by decide, by decide⟩

/-- C1 (amended): tie determinism holds at the comparison the loop actually
performs: when the two *pending* records compared by the main loop carry
equal timestamps, the loop takes its tie branch and emits A's pending line
first, then B's, and clears both buffers.  (A tie between A's pending record
and a record drained from B during the B-drain step is emitted B-first, as
the counterexample shows.) -/
theorem merge_tie_emits_A_first (fuel : Nat) (la lb : String) (as bs : List String)
    {t u : DateTime}
    (hga : get_log_time la = .ok (some t)) (hgb : get_log_time lb = .ok (some u))
    (hk : t.key = u.key) :
    merge_go (fuel + 1) (some la) (some lb) as bs =
      (merge_go fuel none none as bs).map (MergeRes.prepend [la, lb]) := by
  have hla : la ≠ "" := get_log_time_some_ne hga
  simp [merge_go, refresh, hga, hgb, hla, hk]

/-- Witness for C1's amended theorem at concrete records tied at
10:02:00. -/
theorem merge_tie_emits_A_first_witness :
    get_log_time lineA2 = .ok (some dt1002) ∧
    get_log_time lineB2 = .ok (some dt1002) ∧
    dt1002.key = dt1002.key ∧
    merge_go 2 (some lineA2) (some lineB2) [] [] =
      (merge_go 1 none none [] []).map (MergeRes.prepend [lineA2, lineB2]) :=
  ⟨by decide, by decide, rfl,
    @merge_tie_emits_A_first 1 lineA2 lineB2 [] [] dt1002 dt1002 (by decide) (by decide) rfl⟩

/-! ## Claim C2 (fail-fast on malformed input) -/

/-- C3 counterexample: stream A holds records at 10:00:00 and 10:02:00,
stream B one record at 10:02:00.  The claim says the drain writes only
subsequent A lines with timestamp `< t_b` and stops at (retaining, not
emitting) the first A line with timestamp `≥ t_b`; here A's second line has
timestamp exactly `t_b`, so per the claim it must be retained as the new
pending line and emitted only after B's record.  The code instead stops on
`> stop_time` only: it writes the equal-timestamped A line during the drain
and emits it before B's record. -/
theorem c3_counterexample :
    logs_merge [lineA1, lineA2] [lineB2] = .ok [lineA1, lineA2, lineB2] ∧
    get_log_time lineA2 = .ok (some dt1002) ∧
    get_log_time lineB2 = .ok (some dt1002) ∧
    write_logs_until (some dt1002) [lineA2] = .ok none [] [lineA2] ∧
    write_logs_until (some dt1002) [lineA2] ≠ .ok (some lineA2) [] [] :=
  ⟨by decide, by decide, by decide, by decide, by decide⟩

/-- C3 (amended): when A's head is strictly earlier than B's head, the merge
emits A's pending line, drain-writes exactly those subsequent A lines whose
timestamp is `≤ t_b`, stops at (and retains as the new `pending_A`, without
emitting) the first A line whose timestamp is strictly `> t_b`, and then
emits B's pending line.  Stated here for the drain helper: on a stream that
is a block of lines with times `≤ stop_time` followed by a line with time
`> stop_time`, it writes exactly the block and returns that first later
line. -/
theorem wlu_drain_boundary (st : DateTime) :
    ∀ (p : List String) (y : String) (rest : List String),
      (∀ l ∈ p, ∃ t, get_log_time l = .ok (some t) ∧ t.key ≤ st.key) →
      (∃ u, get_log_time y = .ok (some u) ∧ st.key < u.key) →
      write_logs_until (some st) (p ++ y :: rest) = .ok (some y) rest p := by
  intro p
  induction p with
  | nil =>
    intro y rest hp hy
    rcases hy with ⟨u, hgy, hu⟩
    simp [write_logs_until, hgy, hu]
  | cons l p ih =>
    intro y rest hp hy
    rcases hp l (by simp) with ⟨t, hgt, hle⟩
    have hnlt : ¬ st.key < t.key := by omega
    have hih := ih y rest (fun x hx => hp x (List.mem_cons_of_mem _ hx)) hy
    simp [write_logs_until, hgt, hnlt, hih]

/-- Witness for C3's amended theorem: with `stop_time` 10:02:00, the drain
writes the 10:00:00 and 10:02:00 lines (equality included) and stops at the
10:05:00 line, returning it unwritten. -/
theorem wlu_drain_boundary_witness :
    write_logs_until (some dt1002) [lineA1, lineA2, lineA3] =
      .ok (some lineA3) [] [lineA1, lineA2] :=
  wlu_drain_boundary dt1002 [lineA1, lineA2] lineA3 []
    (by
      intro l hl
      simp at hl
      rcases hl with rfl | rfl
      · exact ⟨dt1000, by decide, by decide⟩
      · exact ⟨dt1002, by decide, by decide⟩)
    ⟨dt1005, by decide, by decide⟩

/-! ## Claim C4 (order invariant) -/

/-- C4: for inputs whose lines all carry extractable timestamps and are each
sorted ascending by them, a merge run that completes without a fatal error
emits records whose timestamp keys are adjacent-pairwise non-decreasing. -/
theorem merge_order_invariant (as bs out : List String)
    (hpA : AllParse as) (hpB : AllParse bs)
    (sA : TimeSorted as) (sB : TimeSorted bs)
    (h : logs_merge as bs = .ok out) :
    (keysOf out).Chain' (· ≤ ·) := by
  have hm := merge_go_merge_fuel as bs
  rw [h] at hm
  have hres := merge_go_sorted (merge_fuel as bs) none none as bs out hm
    (show AllParse (sideLines none as) from hpA)
    (show AllParse (sideLines none bs) from hpB)
    (show TimeSorted (sideLines none as) from sA)
    (show TimeSorted (sideLines none bs) from sB)
  exact hres.1.chain'

/-- Witness for C4 on concrete sorted inputs (including an exact tie handled
during a drain). -/
theorem merge_order_invariant_witness :
    AllParse [lineA1, lineA2] ∧ AllParse [lineB2] ∧
    TimeSorted [lineA1, lineA2] ∧ TimeSorted [lineB2] ∧
    logs_merge [lineA1, lineA2] [lineB2] = .ok [lineA1, lineA2, lineB2] ∧
    (keysOf [lineA1, lineA2, lineB2]).Chain' (· ≤ ·) :=
  ⟨by decide, by decide, by decide, by decide, by decide,
    merge_order_invariant [lineA1, lineA2] [lineB2] [lineA1, lineA2, lineB2]
      (by decide) (by decide) (by decide) (by decide) (by decide)⟩

/-! ## Claim C5 (completeness) -/

/-- C5: a merge run that completes without a fatal error writes exactly as
many lines as the two inputs hold together — no line dropped, none
duplicated.  (Lines of a real file are nonempty, which the `BlankFree`
hypotheses record.) -/
theorem merge_completeness (as bs out : List String)
    (hA : BlankFree as) (hB : BlankFree bs)
    (h : logs_merge as bs = .ok out) :
    out.length = as.length + bs.length := by
  have hm := merge_go_merge_fuel as bs
  rw [h] at hm
  have hres := merge_go_length (merge_fuel as bs) none none as bs out hm
    (show BlankFree (sideLines none as) from hA)
    (show BlankFree (sideLines none bs) from hB)
  simpa [sideLines] using hres

/-- Witness for C5 on concrete inputs. -/
theorem merge_completeness_witness :
    BlankFree [lineA1, lineA2] ∧ BlankFree [lineB0] ∧
    logs_merge [lineA1, lineA2] [lineB0] = .ok [lineB0, lineA1, lineA2] ∧
    ([lineB0, lineA1, lineA2] : List String).length =
      ([lineA1, lineA2] : List String).length + ([lineB0] : List String).length :=
  ⟨by decide, by decide, by decide,
    merge_completeness [lineA1, lineA2] [lineB0] [lineB0, lineA1, lineA2]
      (by decide) (by decide) (by decide)⟩

/-! ## Claim C6 (content preservation) -/

/-- C6: every line the merge writes — also on a run that aborts with an
error — is byte-identical to some line of one of the two input streams; the
merge only ever copies whole lines read from its inputs. -/
theorem merge_content_preservation (as bs : List String) :
    ∀ l ∈ (logs_merge as bs).written, l ∈ as ∨ l ∈ bs := by
  intro l hl
  have hm := merge_go_merge_fuel as bs
  have hres := merge_go_written (merge_fuel as bs) none none as bs
    (logs_merge as bs) hm l hl
  simpa [sideLines] using hres

/-- Witness for C6 at a concrete emitted line. -/
theorem merge_content_preservation_witness :
    lineB1 ∈ (logs_merge [lineA2] [lineB1, lineB2]).written ∧
    (lineB1 ∈ ([lineA2] : List String) ∨ lineB1 ∈ ([lineB1, lineB2] : List String)) :=
  ⟨by decide, merge_content_preservation [lineA2] [lineB1, lineB2] lineB1 (by decide)⟩

/-! ## Claim C7 (verbatim tail copy) -/

/-- C7 counterexample: B's only record (09:00:00) is consumed and B is
exhausted during the first iteration; the remaining line `not-json` of A is
nevertheless parsed by the next loop iteration — the head the loop holds is
always fed to `get_log_time` — and the merge aborts instead of copying it
silently.  This falsifies "once one input stream is exhausted, every
remaining line of the other stream is copied to the output verbatim without
any JSON parsing, and never raises". -/
theorem c7_counterexample :
    logs_merge [lineA1, badLine] [lineB0] =
      .err (.jsonDecode badLine) [lineB0, lineA1] := by decide

/-- C7 (amended): the lines consumed by `write_logs_until` when it is called
with `stop_time = None` (that is, after the other stream's head produced no
timestamp) are copied verbatim, in order, with no JSON parsing and no
possibility of an exception, for any contents; however the first remaining
line is still held as the loop's pending head and is parsed by the next
iteration, which can raise (see `c7_counterexample`). -/
theorem wlu_none_copies_verbatim (xs : List String) :
    write_logs_until none xs = .ok none [] xs :=
  wlu_none_eq xs

/-! ## Claim C8 (second-level resolution) -/

/-- C8 counterexample: a record line whose timestamp field carries fractional
seconds in addition to the fixed pattern.  The line is valid JSON with a
string timestamp field, yet extraction does *not* succeed:
`strptime(_, "%Y-%m-%d %H:%M:%S")` raises `ValueError` on the unconverted
trailing `.5`, so the fractional seconds are fatal rather than excluded from
the comparison key. -/
theorem c8_counterexample :
    (json_loads (fracLine 5)).isSome = true ∧
    get_log_time (fracLine 5) = .error (.formatMismatch (fracTs 5)) :=
  ⟨by decide, by decide⟩

/-- C8 (amended): the fixed format admits no fractional seconds: the plain
timestamp parses, and appending `.d` (any decimal digit `d`) to it makes
timestamp extraction fail with an error — the merge aborts on such a record
rather than ignoring the fraction. -/
theorem fractional_seconds_rejected :
    strptime_dt "2021-01-01 10:00:00" = some dt1000 ∧
    ∀ d, d < 10 →
      get_log_time (fracLine d) = .error (.formatMismatch (fracTs d)) :=
  ⟨by decide, by decide⟩

/-- Witness for C8's amended theorem at the digit 5. -/
theorem fractional_seconds_rejected_witness :
    5 < 10 ∧ get_log_time (fracLine 5) = .error (.formatMismatch (fracTs 5)) :=
  ⟨by decide, fractional_seconds_rejected.2 5 (by decide)⟩

/-! ## Claim C9 (bounded look-ahead) -/

/-- C9: the merge holds at most one buffered line per input at any time: the
loop's `line_a`/`line_b` buffers are `Option String` by construction (each
empty or holding exactly one unconsumed line), and the drain helper accounts
for every line it read — each is written, left unread in the stream, or
retained as the returned pending line, of which there is at most one. -/
theorem bounded_lookahead {st : Option DateTime} {xs : List String}
    {p : Option String} {rest w : List String}
    (h : write_logs_until st xs = .ok p rest w) :
    xs = w ++ p.toList ++ rest ∧ p.toList.length ≤ 1 := by
  refine ⟨wlu_split h, ?_⟩
  cases p <;> simp

/-- Witness for C9: the drain stops at the 10:02:00 line when told to stop
past 10:00:00, retaining exactly one unwritten line. -/
theorem bounded_lookahead_witness :
    write_logs_until (some dt1000) [lineA2] = .ok (some lineA2) [] [] ∧
    ([lineA2] : List String) = [] ++ (some lineA2).toList ++ [] ∧
    (some lineA2 : Option String).toList.length ≤ 1 := by
  have h : write_logs_until (some dt1000) [lineA2] = .ok (some lineA2) [] [] := by
    decide
  exact ⟨h, bounded_lookahead h⟩

/-! ## Claim C10 (distinctness before deletion) -/

/-- C10: whenever the three path arguments are not pairwise distinct — in
particular when the output path equals either input path — argument
processing raises an error *before* the pre-existing-output deletion step,
and the file system is returned untouched: every error path of `parse_args`
returns `fs` unchanged, and the `os.remove` of a stale output file sits
strictly after the distinctness check. -/
theorem parse_args_distinct_before_delete (log_a log_b output : String)
    (fs : List String)
    (h : output = log_a ∨ output = log_b ∨ log_a = log_b) :
    ∃ e, parse_args log_a log_b output fs = .error (e, fs) := by
  rw [parse_args]
  cases ha : validate_input fs log_a with
  | none => exact ⟨.invalidArg log_a, rfl⟩
  | some a =>
    cases hb : validate_input fs log_b with
    | none => exact ⟨.invalidArg log_b, rfl⟩
    | some b =>
      cases ho : validate_output output with
      | none => exact ⟨.invalidArg output, rfl⟩
      | some o =>
        have hea : a = log_a := by
          rw [validate_input] at ha
          split at ha
          · exact absurd ha (by simp)
          · injection ha with ha
            exact ha.symm
        have heb : b = log_b := by
          rw [validate_input] at hb
          split at hb
          · exact absurd hb (by simp)
          · injection hb with hb
            exact hb.symm
        have heo : o = output := by
          rw [validate_output] at ho
          split at ho
          · exact absurd ho (by simp)
          · injection ho with ho
            exact ho.symm
        subst hea heb heo
        have hcol : a = b ∨ a = o ∨ b = o := by tauto
        refine ⟨.samePaths, ?_⟩
        simp [hcol]

/-- Witness for C10: output path equal to input A's path, rejected with the
file system unchanged. -/
theorem parse_args_distinct_before_delete_witness :
    (("a.jsonl" : String) = "a.jsonl" ∨ ("a.jsonl" : String) = "b.jsonl" ∨
      ("a.jsonl" : String) = "b.jsonl") ∧
    ∃ e, parse_args "a.jsonl" "b.jsonl" "a.jsonl" ["a.jsonl", "b.jsonl"] =
      .error (e, ["a.jsonl", "b.jsonl"]) :=
  ⟨Or.inl rfl,
    parse_args_distinct_before_delete "a.jsonl" "b.jsonl" "a.jsonl"
      ["a.jsonl", "b.jsonl"] (Or.inl rfl)⟩
